import Mathlib

/-!
# SecureFileShare — verification of the core against its specification

Shallow embedding of the core of the SecureFileShare repository:

* `src/utils.py` — the crypto engine (`encrypt_file` / `decrypt_file`, which
  delegate to AES-GCM), storage-name generation (`generate_unique_filename`),
  and the chunk assembler (`save_file_chunks`);
* `src/models.py` — the `Share` validity state machine (`Share.is_valid`,
  `Share.increment_download_count`) and `Folder.get_path`.

Bytes are modelled as `Nat` (values below 256 where the model produces them),
byte strings as `List Nat`, 128-bit blocks as `Nat` (reduced mod `2 ^ 128`
where overflow matters).  Randomness (keys, nonces, random filename suffixes)
and the current time are modelled as explicit parameters: the Python code
draws them from `secrets` / `datetime.utcnow()`.

The AES block cipher itself lives in the external `cryptography` package, so
it is a parameter `e : Nat → Nat` (the keyed 128-bit permutation); the GCM
mode around it (counter-mode keystream, GHASH over GF(2^128), tag handling)
is implemented concretely following NIST SP 800-38D, which is what
`cryptography.hazmat.primitives.ciphers.aead.AESGCM` implements.
-/

namespace SFS

/-! ## Byte/block conversions -/

/-- Big-endian interpretation of a byte list as a natural number. -/
def bytesToNat (bs : List Nat) : Nat :=
  bs.foldl (fun acc b => acc * 256 + b) 0

/-- Big-endian encoding of `v` on exactly `n` bytes (high bytes first). -/
def natToBytes : Nat → Nat → List Nat
  | 0, _ => []
  | n + 1, v => natToBytes n (v / 256) ++ [v % 256]

theorem length_natToBytes (n v : Nat) : (natToBytes n v).length = n := by
  induction n generalizing v with
  | zero => rfl
  | succ n ih => simp [natToBytes, ih]

/-! ## GF(2^128) and GHASH (NIST SP 800-38D, §6.3–6.4) -/

/-- The GCM reduction constant `R = 11100001 ∥ 0^120`. -/
def gcmR : Nat := 0xe1000000000000000000000000000000

/-- One step of the GCM multiplication loop: `x` is the running `V`,
`y` holds the remaining bits of `Y` (most significant first), `z` the
accumulator `Z`. -/
def gfMulGo : Nat → Nat → Nat → Nat → Nat
  | 0, _, _, z => z
  | fuel + 1, x, y, z =>
      gfMulGo fuel
        (if x % 2 = 1 then (x / 2) ^^^ gcmR else x / 2)
        ((y * 2) % 2 ^ 128)
        (if y.testBit 127 then z ^^^ x else z)

/-- Multiplication in GF(2^128) with the GCM bit convention. -/
def gfMul (x y : Nat) : Nat := gfMulGo 128 x y 0

/-- GHASH folding step over whole 128-bit blocks:
`y_i = (y_{i-1} XOR x_i) · H`. -/
def ghashBlocks (h : Nat) : List Nat → Nat → Nat
  | [], y => y
  | b :: bs, y => ghashBlocks h bs (gfMul (y ^^^ b) h)

/-- A (possibly short) run of at most 16 bytes, zero-padded on the right to a
full 128-bit block. -/
def padBlock (l : List Nat) : Nat :=
  bytesToNat (l ++ List.replicate (16 - l.length) 0)

/-- Split a byte string into 128-bit blocks, zero-padding the last one. -/
def toBlocks : List Nat → List Nat
  | [] => []
  | a :: l => padBlock ((a :: l).take 16) :: toBlocks (l.drop 15)
  termination_by l => l.length
  decreasing_by simp [List.length_drop]; omega

/-- `GHASH_H` of a ciphertext with empty associated data: the padded
ciphertext blocks followed by the 128-bit length block
`len(A) = 0 ∥ len(C)` (bit lengths). -/
def ghash (h : Nat) (c : List Nat) : Nat :=
  ghashBlocks h (toBlocks c ++ [(8 * c.length) % 2 ^ 64]) 0

/-! ## GCM encryption / decryption over an abstract block cipher -/

/-- The `i`-th counter block derived from `j0` by 32-bit increment. -/
def ctrBlock (e : Nat → Nat) (j0 i : Nat) : Nat :=
  e (j0 / 2 ^ 32 * 2 ^ 32 + (j0 % 2 ^ 32 + i) % 2 ^ 32)

/-- The first `n` bytes of the CTR keystream (counters start at
`inc32(j0)`, i.e. at offset 1, as in GCM). -/
def keystream (e : Nat → Nat) (j0 n : Nat) : List Nat :=
  (((List.range ((n + 15) / 16)).map
      (fun i => natToBytes 16 (ctrBlock e j0 (i + 1)))).flatten).take n

/-- AES-GCM encryption with a 96-bit nonce and no associated data, over the
abstract keyed permutation `e`.  Returns `ciphertext ∥ tag` exactly as
`AESGCM.encrypt(nonce, plaintext, None)` does. -/
def aesgcmEncrypt (e : Nat → Nat) (nonce pt : List Nat) : List Nat :=
  let j0 := bytesToNat nonce * 2 ^ 32 + 1
  let h := e 0
  let c := List.zipWith Nat.xor pt (keystream e j0 pt.length)
  c ++ natToBytes 16 (ghash h c ^^^ e j0)

/-- AES-GCM decryption: recompute the tag over the received ciphertext body
and compare; on mismatch (or a too-short input) fail with no output at all,
as `AESGCM.decrypt` raises `InvalidTag`. -/
def aesgcmDecrypt (e : Nat → Nat) (nonce ct : List Nat) : Option (List Nat) :=
  if ct.length < 16 then none
  else
    let j0 := bytesToNat nonce * 2 ^ 32 + 1
    let h := e 0
    let c := ct.take (ct.length - 16)
    if ct.drop (ct.length - 16) = natToBytes 16 (ghash h c ^^^ e j0) then
      some (List.zipWith Nat.xor c (keystream e j0 c.length))
    else none

/-! ## `encrypt_file` / `decrypt_file` (src/utils.py)

The filesystem is a map from paths to byte strings.  `encrypt_file` writes
the ciphertext to `output_file_path` and returns `(key, nonce)`; the key and
nonce are parameters standing for the `secrets.token_bytes` draws.  The AES
family is the parameter `E : List Nat → Nat → Nat` (key bytes to keyed
permutation). -/

def encrypt_file (E : List Nat → Nat → Nat) (key nonce : List Nat)
    (input_file : List Nat) (fs : String → List Nat) (output_file_path : String) :
    (String → List Nat) × List Nat × List Nat :=
  (fun p => if p = output_file_path then aesgcmEncrypt (E key) nonce input_file else fs p,
   key, nonce)

def decrypt_file (E : List Nat → Nat → Nat) (fs : String → List Nat)
    (file_path : String) (key nonce : List Nat) : Option (List Nat) :=
  aesgcmDecrypt (E key) nonce (fs file_path)

/-! ### Round-trip lemmas -/

theorem length_keystream (e : Nat → Nat) (j0 n : Nat) :
    (keystream e j0 n).length = n := by
  have hlen : (((List.range ((n + 15) / 16)).map
      (fun i => natToBytes 16 (ctrBlock e j0 (i + 1)))).flatten).length
      = 16 * ((n + 15) / 16) := by
    rw [List.length_flatten]
    rw [List.map_map]
    have : ((List.range ((n + 15) / 16)).map
        ((fun l => List.length l) ∘ fun i => natToBytes 16 (ctrBlock e j0 (i + 1))))
        = (List.range ((n + 15) / 16)).map (fun _ => 16) := by
      apply List.map_congr_left
      intro i _
      simp [length_natToBytes]
    rw [this, List.map_const', List.sum_replicate, List.length_range, smul_eq_mul]
    ring
  rw [keystream, List.length_take, hlen]
  omega

theorem zipWith_xor_cancel :
    ∀ (l m : List Nat), List.zipWith Nat.xor (List.zipWith Nat.xor l m) m = l.take m.length
  | [], _ => by simp
  | _ :: _, [] => by simp
  | a :: l, b :: m => by
    simp only [List.zipWith, List.take, List.cons.injEq]
    exact ⟨show a ^^^ b ^^^ b = a by rw [Nat.xor_assoc, Nat.xor_self, Nat.xor_zero],
      zipWith_xor_cancel l m⟩

theorem aesgcm_roundtrip (e : Nat → Nat) (nonce pt : List Nat) :
    aesgcmDecrypt e nonce (aesgcmEncrypt e nonce pt) = some pt := by
  unfold aesgcmEncrypt aesgcmDecrypt
  have hc : (List.zipWith Nat.xor pt
      (keystream e (bytesToNat nonce * 2 ^ 32 + 1) pt.length)).length = pt.length := by
    rw [List.length_zipWith, length_keystream, Nat.min_self]
  have htag : (natToBytes 16 (ghash (e 0)
      (List.zipWith Nat.xor pt (keystream e (bytesToNat nonce * 2 ^ 32 + 1) pt.length))
        ^^^ e (bytesToNat nonce * 2 ^ 32 + 1))).length = 16 := length_natToBytes _ _
  simp only [List.length_append, hc, htag]
  have hnotshort : ¬ pt.length + 16 < 16 := by omega
  rw [if_neg hnotshort]
  have hsub : pt.length + 16 - 16 = pt.length := by omega
  rw [hsub]
  rw [List.take_left' hc, List.drop_left' hc]
  rw [if_pos rfl]
  rw [hc, zipWith_xor_cancel, length_keystream, List.take_length]

/-- **C1.** Encrypting a payload with `encrypt_file` and decrypting the file
it wrote with `decrypt_file`, using exactly the key and nonce that
`encrypt_file` returned, yields the payload again — for every plaintext,
key, nonce, output path and block cipher. -/
theorem encrypt_decrypt_roundtrip (E : List Nat → Nat → Nat)
    (key nonce input_file : List Nat) (fs : String → List Nat) (path : String) :
    decrypt_file E (encrypt_file E key nonce input_file fs path).1 path
      (encrypt_file E key nonce input_file fs path).2.1
      (encrypt_file E key nonce input_file fs path).2.2
      = some input_file := by
  unfold encrypt_file decrypt_file
  simp only [if_pos rfl]
  exact aesgcm_roundtrip (E key) nonce input_file

/-! ## The `Share` model (src/models.py)

`expires_at` is an optional timestamp on a `Nat` timeline (`datetime.utcnow()`
is the `now` parameter); `max_downloads` and `download_count` are Python
ints.  Python truthiness: `None` and `0` are falsy, any other int truthy;
`datetime` values are always truthy, so `if self.expires_at` is a plain
`None` test. -/

structure Share where
  expires_at : Option Nat
  max_downloads : Option Int
  download_count : Int

/-- Python truthiness of `self.expires_at and self.expires_at < now`:
`None` is falsy, a `datetime` always truthy. -/
def Share.expiryFired (s : Share) (now : Nat) : Bool :=
  s.expires_at.elim false (fun e => decide (e < now))

/-- Python truthiness of `self.max_downloads and self.download_count >=
self.max_downloads`: `None` and `0` are falsy, other ints truthy. -/
def Share.quotaFired (s : Share) : Bool :=
  s.max_downloads.elim false (fun m => decide (m ≠ 0) && decide (m ≤ s.download_count))

/-- `Share.is_valid` from src/models.py:
`if self.expires_at and self.expires_at < datetime.utcnow(): return False`;
`if self.max_downloads and self.download_count >= self.max_downloads: return False`;
`return True`. -/
def Share.is_valid (s : Share) (now : Nat) : Bool :=
  if s.expiryFired now then false
  else if s.quotaFired then false
  else true

/-- `Share.increment_download_count`: `self.download_count += 1` followed by
a commit; persistence is modelled by returning the updated record. -/
def Share.increment_download_count (s : Share) : Share :=
  { s with download_count := s.download_count + 1 }

inductive ShareClass where
  | active
  | expired
  | exhausted
deriving DecidableEq

/-- Modelled from the spec: the share-download route (in the repository's
`routes/` package, which is not under src/) maps a failed `is_valid` check to
a user-visible error kind; spec §4.5 names the classifications `Expired`
(the expiry clause fired) and `Exhausted` (the quota clause fired).  The two
clauses are exactly the two clauses of `Share.is_valid`. -/
def Share.classify (s : Share) (now : Nat) : ShareClass :=
  if s.expiryFired now then .expired
  else if s.quotaFired then .exhausted
  else .active

/-- Modelled from the spec: the access step of spec §4.5 — check validity
via `is_valid`, increment the download counter only on success, and report
the classification of the failing clause otherwise. -/
def accessShare (s : Share) (now : Nat) : ShareClass × Share :=
  if s.is_valid now then (.active, s.increment_download_count)
  else (s.classify now, s)

theorem is_valid_iff_classify_active (s : Share) (now : Nat) :
    s.is_valid now = true ↔ s.classify now = .active := by
  unfold Share.is_valid Share.classify
  by_cases h₁ : s.expiryFired now = true
  · simp [h₁]
  · by_cases h₂ : s.quotaFired = true
    · simp [h₁, h₂]
    · simp [h₁, h₂]

theorem lt_of_is_valid_quota {s : Share} {now : Nat} {m : Int}
    (hv : s.is_valid now = true) (hm : s.max_downloads = some m) (h0 : m ≠ 0) :
    s.download_count < m := by
  unfold Share.is_valid at hv
  split at hv
  · simp at hv
  · split at hv
    · simp at hv
    · rename_i h2
      unfold Share.quotaFired at h2
      rw [hm] at h2
      simp only [Option.elim_some, Bool.and_eq_true, decide_eq_true_eq] at h2
      push_neg at h2
      have := h2 h0
      omega

/-- **C3 (counterexample).** A share with `max_downloads` set to `0` is
treated as unlimited: one access succeeds and pushes `download_count` to
`1 > 0 = max_downloads`, so the claimed invariant fails for `max_downloads`
set but zero. -/
theorem quota_zero_exceeded_counterexample :
    (Share.mk none (some 0) 0).max_downloads = some 0
    ∧ (accessShare (Share.mk none (some 0) 0) 0).1 = ShareClass.active
    ∧ 0 < (accessShare (Share.mk none (some 0) 0) 0).2.download_count := by
  refine ⟨rfl, ?_, ?_⟩ <;> decide

/-- **C3 (amended).** For every share whose `max_downloads` is set to a
*positive* value, the access step never pushes `download_count` past
`max_downloads`; and the concrete scenario: with `max_downloads = 1` and
`download_count = 0` (and no live expiry), the first access is classified
`active` and moves the counter to `1`, and a second access is rejected as
`exhausted`. -/
theorem download_count_le_max_downloads (s : Share) (now now2 : Nat) :
    (∀ m : Int, s.max_downloads = some m → 1 ≤ m → s.download_count ≤ m →
      (accessShare s now).2.download_count ≤ m)
    ∧ (s.max_downloads = some 1 → s.download_count = 0 →
      (∀ e, s.expires_at = some e → ¬ e < now) →
      (∀ e, s.expires_at = some e → ¬ e < now2) →
      (accessShare s now).1 = ShareClass.active
      ∧ (accessShare s now).2.download_count = 1
      ∧ (accessShare (accessShare s now).2 now2).1 = ShareClass.exhausted) := by
  constructor
  · intro m hm h1 hdc
    by_cases hv : s.is_valid now = true
    · have hlt : s.download_count < m := lt_of_is_valid_quota hv hm (by omega)
      simp only [accessShare, hv, if_true, Share.increment_download_count]
      omega
    · simp only [accessShare, hv, if_false]
      exact hdc
  · intro hm hdc hexp hexp2
    obtain ⟨exp, md, dc⟩ := s
    simp only at hm hdc hexp hexp2
    subst hm hdc
    have hexpb : Share.expiryFired ⟨exp, some 1, 0⟩ now = false := by
      unfold Share.expiryFired
      cases exp with
      | none => rfl
      | some e => simpa using hexp e rfl
    have hexpb2 : ∀ c : Int, Share.expiryFired ⟨exp, some 1, c⟩ now2 = false := by
      intro c
      unfold Share.expiryFired
      cases exp with
      | none => rfl
      | some e => simpa using hexp2 e rfl
    have hv : Share.is_valid ⟨exp, some 1, 0⟩ now = true := by
      unfold Share.is_valid Share.quotaFired
      simp [hexpb]
    refine ⟨?_, ?_, ?_⟩
    · simp [accessShare, hv]
    · simp [accessShare, hv, Share.increment_download_count]
    · have hv2 : Share.is_valid ⟨exp, some 1, 1⟩ now2 = false := by
        unfold Share.is_valid Share.quotaFired
        simp [hexpb2 1]
      have hcl : Share.classify ⟨exp, some 1, 1⟩ now2 = ShareClass.exhausted := by
        unfold Share.classify Share.quotaFired
        simp [hexpb2 1]
      simp [accessShare, hv, Share.increment_download_count, hv2, hcl]

/-- **C3 (witness).** The `max_downloads = 1` scenario at concrete inputs. -/
theorem download_count_le_max_downloads_witness :
    (accessShare (Share.mk none (some 1) 0) 0).1 = ShareClass.active
    ∧ (accessShare (Share.mk none (some 1) 0) 0).2.download_count = 1
    ∧ (accessShare (accessShare (Share.mk none (some 1) 0) 0).2 0).1
        = ShareClass.exhausted :=
  (download_count_le_max_downloads (Share.mk none (some 1) 0) 0 0).2 rfl rfl
    (fun _ h => Option.noConfusion h) (fun _ h => Option.noConfusion h)

/-- **C4 (counterexample).** At the boundary instant `now = expires_at` the
code still reports the share valid (`expires_at < now` is strict), while the
claim demands `Expired` at `now ≥ expires_at`. -/
theorem expiry_boundary_counterexample :
    Share.is_valid (Share.mk (some 100) none 0) 100 = true := by
  decide

/-- **C4 (amended).** For every share with `expires_at` set and every `now`
*strictly after* `expires_at`, `is_valid` reports the share invalid,
regardless of `download_count` and `max_downloads`.  (The code's comparison
is strict, so at `now = expires_at` the share is still valid.) -/
theorem expired_share_invalid (s : Share) (now e : Nat)
    (hexp : s.expires_at = some e) (hlt : e < now) :
    s.is_valid now = false := by
  unfold Share.is_valid Share.expiryFired
  rw [hexp]
  simp [hlt]

/-- **C4 (witness).** A share expired one tick ago is invalid, even with a
generous quota. -/
theorem expired_share_invalid_witness :
    Share.is_valid (Share.mk (some 100) (some 50) 0) 101 = false :=
  expired_share_invalid (Share.mk (some 100) (some 50) 0) 101 100 rfl
    (by decide)

/-- **C10.** A share whose `max_downloads` is set to `0` (not `None`) is
valid for *every* download count, provided no expiry has fired: the quota
clause tests Python truthiness of `max_downloads`, and `0` is falsy, so a
zero limit grants unlimited downloads. -/
theorem max_downloads_zero_unlimited (dc : Int) (exp : Option Nat) (now : Nat)
    (hexp : ∀ e, exp = some e → ¬ e < now) :
    Share.is_valid ⟨exp, some 0, dc⟩ now = true := by
  have hexpb : Share.expiryFired ⟨exp, some 0, dc⟩ now = false := by
    unfold Share.expiryFired
    cases exp with
    | none => rfl
    | some e => simpa using hexp e rfl
  unfold Share.is_valid Share.quotaFired
  simp [hexpb]

/-- **C10 (witness).** `max_downloads = 0` with a download count of one
million: still valid. -/
theorem max_downloads_zero_unlimited_witness :
    Share.is_valid ⟨none, some 0, 1000000⟩ 0 = true :=
  max_downloads_zero_unlimited 1000000 none 0 (fun _ h => Option.noConfusion h)

/-! ## The `Folder` model (src/models.py)

Folders form an identifier-indexed store; each record carries a name and an
optional parent identifier (`self.parent` resolves the reference).  The
Python `while current:` loop terminates exactly when iterated parent
references reach a folder without a parent, so the embedding runs on fuel
and the acyclicity precondition is an inductive reachability predicate. -/

structure FolderRec where
  name : String
  parent : Option Nat

/-- Walk `current = current.parent`, accumulating names front-first, exactly
as the loop in `Folder.get_path` builds `path` by `insert(0, ...)`. -/
def getPathNames (A : Nat → Option FolderRec) :
    Nat → Nat → List String → Option (List String)
  | 0, _, _ => none
  | fuel + 1, i, acc =>
      match A i with
      | none => none
      | some f =>
          match f.parent with
          | none => some (f.name :: acc)
          | some p => getPathNames A fuel p (f.name :: acc)

/-- `Folder.get_path`: `'/' + '/'.join(path)` for the accumulated name list,
on an explicit fuel budget (the Python loop has no cycle guard). -/
def Folder.get_path (A : Nat → Option FolderRec) (fuel i : Nat) :
    Option String :=
  (getPathNames A fuel i []).map (fun path => "/" ++ String.intercalate "/" path)

/-- The parent chain from `i` is acyclic and reaches a root; `ns` lists the
folder names from the root down to folder `i`. -/
inductive RootedChain (A : Nat → Option FolderRec) : Nat → List String → Prop
  | root {i : Nat} {f : FolderRec} :
      A i = some f → f.parent = none → RootedChain A i [f.name]
  | step {i p : Nat} {f : FolderRec} {ns : List String} :
      A i = some f → f.parent = some p → RootedChain A p ns →
      RootedChain A i (ns ++ [f.name])

theorem getPathNames_of_rootedChain {A : Nat → Option FolderRec} {i : Nat}
    {ns : List String} (h : RootedChain A i ns) :
    ∀ (acc : List String) (fuel : Nat), ns.length ≤ fuel →
      getPathNames A fuel i acc = some (ns ++ acc) := by
  induction h with
  | root hA hp =>
    intro acc fuel hfuel
    cases fuel with
    | zero => exact absurd hfuel (by simp)
    | succ fuel => simp [getPathNames, hA, hp]
  | step hA hp _ ih =>
    rename_i ns _
    intro acc fuel hfuel
    cases fuel with
    | zero => exact absurd hfuel (by simp)
    | succ fuel =>
      have hns : ns.length ≤ fuel := by
        simp only [List.length_append, List.length_cons, List.length_nil] at hfuel
        omega
      simp [getPathNames, hA, hp, ih _ fuel hns]

/-- **C9.** For every folder whose parent chain is acyclic (iterated parent
references reach a parentless root, witnessed by `RootedChain`),
`Folder.get_path` terminates — any fuel at least the chain length suffices —
and returns `'/'` followed by the names from the root down to the folder,
joined by `'/'`. -/
theorem get_path_of_acyclic (A : Nat → Option FolderRec) (i : Nat)
    (ns : List String) (h : RootedChain A i ns) (fuel : Nat)
    (hfuel : ns.length ≤ fuel) :
    Folder.get_path A fuel i = some ("/" ++ String.intercalate "/" ns) := by
  unfold Folder.get_path
  rw [getPathNames_of_rootedChain h [] fuel hfuel]
  simp

/-- **C9 (witness).** A two-folder arena: folder 1 named `b` inside root
folder 0 named `a`; its path is `/a/b`. -/
theorem get_path_of_acyclic_witness :
    Folder.get_path
      (fun n => if n = 0 then some ⟨"a", none⟩
                else if n = 1 then some ⟨"b", some 0⟩ else none)
      2 1 = some "/a/b" :=
  get_path_of_acyclic _ 1 ["a", "b"]
    (RootedChain.step (f := ⟨"b", some 0⟩) rfl rfl
      (RootedChain.root (f := ⟨"a", none⟩) rfl rfl))
    2 (by decide)

/-! ## `generate_unique_filename` (src/utils.py)

`timestamp` stands for `datetime.utcnow().strftime('%Y%m%d%H%M%S')` and the
eight `randomBytes` for the draw inside `secrets.token_hex(8)` (which hex
encodes 8 CSPRNG bytes, i.e. 64 bits of entropy, to 16 lowercase hex
characters).  `Path(original_filename).suffix` is modelled from `pathlib`:
the extension of the final path component, taken from its last dot provided
that dot is neither leading nor trailing. -/

/-- Python `str.split(sep)` for a one-character separator: splits at every
occurrence, keeping empty runs (`"a__b".split("_") == ['a', '', 'b']`). -/
def splitOnChar (c : Char) : List Char → List (List Char)
  | [] => [[]]
  | x :: xs =>
      match splitOnChar c xs with
      | [] => [[]]
      | h :: t => if x = c then [] :: h :: t else (x :: h) :: t

/-- One lowercase hexadecimal digit. -/
def hexDigit (n : Nat) : Char :=
  "0123456789abcdef".toList.getD n '0'

/-- `secrets.token_hex`: each byte becomes two lowercase hex characters. -/
def tokenHex (bytes : List Nat) : String :=
  ⟨bytes.flatMap (fun b => [hexDigit (b / 16), hexDigit (b % 16)])⟩

/-- The final path component (`PurePath.name`): the last component after
splitting on `/`, with empty and `.` components dropped. -/
def pathFinalComponent (s : String) : List Char :=
  ((splitOnChar '/' s.toList).filter (fun c => !(c.isEmpty || c == ['.']))).getLastD []

/-- `PurePath.suffix`: the final component's extension — from its last dot,
provided the dot is neither the first nor the last character. -/
def pySuffix (s : String) : String :=
  let cs := pathFinalComponent s
  match ((List.range cs.length).filter (fun i => cs.getD i ' ' == '.')).getLast? with
  | some i => if 0 < i ∧ i < cs.length - 1 then ⟨cs.drop i⟩ else ""
  | none => ""

/-- `generate_unique_filename` from src/utils.py:
`f"{timestamp}_{random_str}{ext}"`. -/
def generate_unique_filename (timestamp : String) (randomBytes : List Nat)
    (original_filename : String) : String :=
  timestamp ++ "_" ++ tokenHex randomBytes ++ pySuffix original_filename

theorem hexDigit_inj : ∀ a < 16, ∀ b < 16, hexDigit a = hexDigit b → a = b := by
  decide

theorem tokenHex_inj :
    ∀ (r₁ r₂ : List Nat), r₁.length = r₂.length →
      (∀ x ∈ r₁, x < 256) → (∀ x ∈ r₂, x < 256) →
      tokenHex r₁ = tokenHex r₂ → r₁ = r₂
  | [], [], _, _, _, _ => rfl
  | a :: r₁, b :: r₂, hlen, hb₁, hb₂, heq => by
    have ha : a < 256 := hb₁ a (List.mem_cons_self a r₁)
    have hb : b < 256 := hb₂ b (List.mem_cons_self b r₂)
    have hdata : (a :: r₁).flatMap (fun b => [hexDigit (b / 16), hexDigit (b % 16)])
        = (b :: r₂).flatMap (fun b => [hexDigit (b / 16), hexDigit (b % 16)]) :=
      congrArg String.data heq
    simp only [List.flatMap_cons, List.cons_append, List.nil_append,
      List.cons.injEq] at hdata
    obtain ⟨hhi, hlo, htail⟩ := hdata
    have h₁ : a / 16 = b / 16 :=
      hexDigit_inj (a / 16) (by omega) (b / 16) (by omega) hhi
    have h₂ : a % 16 = b % 16 :=
      hexDigit_inj (a % 16) (by omega) (b % 16) (by omega) hlo
    have hab : a = b := by omega
    have htails : r₁ = r₂ :=
      tokenHex_inj r₁ r₂ (by simpa using hlen)
        (fun x hx => hb₁ x (List.mem_cons_of_mem _ hx))
        (fun x hx => hb₂ x (List.mem_cons_of_mem _ hx))
        (congrArg String.mk htail)
    rw [hab, htails]

/-- **C8.** The generated storage name depends on the original filename only
through its extension: two originals with the same suffix produce the same
name under the same timestamp and the same random draw.  And the random hex
suffix carries the full 64 bits of the 8-byte draw: the map from draws to
generated names is injective, so the `256 ^ 8 = 2 ^ 64` possible draws give
`2 ^ 64` distinct names. -/
theorem unique_filename_noninterference (t : String) (r : List Nat)
    (a b orig : String) (r₁ r₂ : List Nat) :
    (pySuffix a = pySuffix b →
      generate_unique_filename t r a = generate_unique_filename t r b)
    ∧ (r₁.length = 8 → r₂.length = 8 →
      (∀ x ∈ r₁, x < 256) → (∀ x ∈ r₂, x < 256) →
      generate_unique_filename t r₁ orig = generate_unique_filename t r₂ orig →
      r₁ = r₂) := by
  constructor
  · intro hsuf
    unfold generate_unique_filename
    rw [hsuf]
  · intro hl₁ hl₂ hb₁ hb₂ heq
    unfold generate_unique_filename at heq
    have hdata : t.data ++ '_' :: ((tokenHex r₁).data ++ (pySuffix orig).data)
        = t.data ++ '_' :: ((tokenHex r₂).data ++ (pySuffix orig).data) := by
      simpa [String.data_append] using congrArg String.data heq
    have hmid : (tokenHex r₁).data ++ (pySuffix orig).data
        = (tokenHex r₂).data ++ (pySuffix orig).data := by
      have := List.append_cancel_left hdata
      exact List.cons.inj this |>.2
    have hhex : (tokenHex r₁).data = (tokenHex r₂).data :=
      List.append_cancel_right hmid
    exact tokenHex_inj r₁ r₂ (by omega)
      hb₁ hb₂ (by cases hr₁ : tokenHex r₁; cases hr₂ : tokenHex r₂; simp_all)

/-- **C8 (witness).** Same `.pdf` extension, same timestamp and draw: the
same storage name; and equal names force equal draws at a concrete draw. -/
theorem unique_filename_noninterference_witness :
    (generate_unique_filename "20250101083000" [1, 2, 3, 4, 5, 6, 7, 8] "report.pdf"
      = generate_unique_filename "20250101083000" [1, 2, 3, 4, 5, 6, 7, 8] "secret-plans.pdf")
    ∧ ([1, 2, 3, 4, 5, 6, 7, 8] : List Nat) = [1, 2, 3, 4, 5, 6, 7, 8] :=
  ⟨(unique_filename_noninterference "20250101083000" [1, 2, 3, 4, 5, 6, 7, 8]
      "report.pdf" "secret-plans.pdf" "x" [] []).1 (by decide),
   (unique_filename_noninterference "20250101083000" []
      "x" "x" "report.pdf" [1, 2, 3, 4, 5, 6, 7, 8] [1, 2, 3, 4, 5, 6, 7, 8]).2
      rfl rfl (by decide) (by decide) rfl⟩

/-! ## `save_file_chunks` (src/utils.py)

The working directory is a listing (the `os.listdir` order) plus a contents
map.  `sorted(..., key=lambda x: int(x.split('_')[1]))` is modelled with the
stable `List.insertionSort` (Python's sort is stable) over the parsed index;
a failed parse (`ValueError`/`IndexError` inside the key function) aborts
before the temporary output file exists.  `failAt i = true` injects an I/O
failure at the read of the `i`-th sorted fragment; the `except` branch
removes the temporary file and re-raises the original error (carried here as
the failing fragment's name). -/

/-- Python `int()` restricted to an optional sign followed by decimal
digits — the only shapes a fragment index takes; `none` is `ValueError`. -/
def digitVal (c : Char) : Option Nat :=
  if '0' ≤ c ∧ c ≤ '9' then some (c.toNat - 48) else none

def parseNatAux : List Char → Nat → Option Nat
  | [], acc => some acc
  | c :: cs, acc =>
      match digitVal c with
      | some d => parseNatAux cs (acc * 10 + d)
      | none => none

def parseNatDigits (cs : List Char) : Option Nat :=
  if cs.isEmpty then none else parseNatAux cs 0

def pyInt? : List Char → Option Int
  | '-' :: rest => (parseNatDigits rest).map (fun n => -(n : Int))
  | '+' :: rest => (parseNatDigits rest).map (fun n => (n : Int))
  | cs => (parseNatDigits cs).map (fun n => (n : Int))

/-- `int(x.split('_')[1])`; `none` models the exception raised inside the
sort's key function. -/
def chunkIdx? (f : String) : Option Int :=
  match (splitOnChar '_' f.toList)[1]? with
  | some t => pyInt? t
  | none => none

/-- The sort key, once every index is known to parse. -/
def chunkIdx (f : String) : Int := (chunkIdx? f).getD 0

/-- `f.startswith('chunk_')`. -/
def isChunkFile (f : String) : Bool := f.toList.take 6 == "chunk_".toList

/-- `sorted([f for f in os.listdir(chunks_dir) if f.startswith('chunk_')],
key=lambda x: int(x.split('_')[1]))`, as a stable sort by parsed index. -/
def chunkFiles (listing : List String) : List String :=
  List.insertionSort (fun a b => chunkIdx a ≤ chunkIdx b) (listing.filter isChunkFile)

/-- Filesystem events of the assembly loop, for the consume-once contract. -/
inductive ChunkEv where
  | readChunk (f : String)
  | writeOut (f : String)
  | unlinkChunk (f : String)
deriving DecidableEq

def chunkTrip (f : String) : List ChunkEv :=
  [ChunkEv.readChunk f, ChunkEv.writeOut f, ChunkEv.unlinkChunk f]

/-- The `for chunk_file in chunk_files:` loop: read a fragment, append its
bytes to the output, delete the fragment (`os.unlink`); a failure at index
`i` stops the loop with that fragment's name as the error.  The state is
(files remaining in the directory, output bytes so far, event trace). -/
def processChunks (contents : String → List Nat) (failAt : Nat → Bool) :
    List String → Nat → List String → List Nat → List ChunkEv →
    Option String × List String × List Nat × List ChunkEv
  | [], _, rem, out, tr => (none, rem, out, tr)
  | f :: rest, i, rem, out, tr =>
      if failAt i then (some f, rem, out, tr)
      else
        processChunks contents failAt rest (i + 1) (rem.erase f)
          (out ++ contents f) (tr ++ chunkTrip f)

structure ChunksOutcome where
  result : Except String (List Nat)
  temp : Option (List Nat)
  remaining : List String
  trace : List ChunkEv

/-- `save_file_chunks(chunks_dir, filename)`: list and sort the fragments
(raising before the temporary file exists if an index fails to parse), then
assemble; on success the temporary file holds the combined bytes and is
returned, on failure the `except` branch deletes it and re-raises. -/
def save_file_chunks (listing : List String) (contents : String → List Nat)
    (failAt : Nat → Bool) : ChunksOutcome :=
  if (listing.filter isChunkFile).any (fun f => (chunkIdx? f).isNone) then
    { result := Except.error "ValueError", temp := none,
      remaining := listing, trace := [] }
  else
    match processChunks contents failAt (chunkFiles listing) 0 listing [] [] with
    | (none, rem, out, tr) =>
        { result := Except.ok out, temp := some out, remaining := rem, trace := tr }
    | (some f, rem, _, tr) =>
        { result := Except.error f, temp := none, remaining := rem, trace := tr }

/-! ### Assembly loop lemmas -/

theorem processChunks_no_fail (contents : String → List Nat) :
    ∀ (files : List String) (i : Nat) (rem : List String) (out : List Nat)
      (tr : List ChunkEv),
      processChunks contents (fun _ => false) files i rem out tr
        = (none, files.foldl (fun r f => r.erase f) rem,
           out ++ (files.map contents).flatten, tr ++ files.flatMap chunkTrip)
  | [], i, rem, out, tr => by simp [processChunks]
  | f :: rest, i, rem, out, tr => by
    rw [processChunks, if_neg (by simp)]
    rw [processChunks_no_fail contents rest (i + 1) (rem.erase f)]
    simp [List.append_assoc]

theorem processChunks_fail (contents : String → List Nat) (failAt : Nat → Bool) :
    ∀ (files : List String) (k i : Nat) (rem : List String) (out : List Nat)
      (tr : List ChunkEv),
      k < files.length → failAt (i + k) = true →
      (∀ j < k, failAt (i + j) = false) →
      processChunks contents failAt files i rem out tr
        = (some (files.getD k ""),
           (files.take k).foldl (fun r f => r.erase f) rem,
           out ++ ((files.take k).map contents).flatten,
           tr ++ (files.take k).flatMap chunkTrip)
  | [], k, i, rem, out, tr, hk, _, _ => by simp at hk
  | f :: rest, 0, i, rem, out, tr, hk, hfail, hmin => by
    rw [processChunks, if_pos (by simpa using hfail)]
    simp
  | f :: rest, k + 1, i, rem, out, tr, hk, hfail, hmin => by
    rw [processChunks, if_neg (by simpa using hmin 0 (by omega))]
    rw [processChunks_fail contents failAt rest k (i + 1) (rem.erase f)
        (out ++ contents f) (tr ++ chunkTrip f) (by simpa using hk)
        (by have := hfail; simpa [Nat.add_assoc, Nat.add_comm 1 k] using this)
        (fun j hj => by
          have := hmin (j + 1) (by omega)
          simpa [Nat.add_assoc, Nat.add_comm 1 j] using this)]
    simp [List.append_assoc]

/-! ### Ordering: the sorted fragment list is the ascending-index list -/

theorem chunkFiles_of_perm_range (names : Nat → String) (n : Nat) (a : Int)
    (listing : List String)
    (hperm : listing.Perm ((List.range n).map names))
    (hpre : ∀ i < n, isChunkFile (names i) = true)
    (hkey : ∀ i < n, chunkIdx? (names i) = some (a + i)) :
    chunkFiles listing = (List.range n).map names := by
  have hk : ∀ i < n, chunkIdx (names i) = a + i := by
    intro i hi
    unfold chunkIdx
    rw [hkey i hi]
    rfl
  have htf : ((List.range n).map names).filter isChunkFile
      = (List.range n).map names := by
    rw [List.filter_eq_self]
    intro x hx
    obtain ⟨i, hi, rfl⟩ := List.mem_map.mp hx
    exact hpre i (List.mem_range.mp hi)
  have hpermf : (listing.filter isChunkFile).Perm ((List.range n).map names) := by
    have := hperm.filter isChunkFile
    rwa [htf] at this
  have hperm2 : (chunkFiles listing).Perm ((List.range n).map names) :=
    (List.perm_insertionSort _ _).trans hpermf
  have hstrict_t : ((List.range n).map names).Pairwise
      (fun x y => chunkIdx x < chunkIdx y) := by
    rw [List.pairwise_map]
    refine (List.pairwise_lt_range n).imp_of_mem ?_
    intro i j hi hj hlt
    rw [hk i (List.mem_range.mp hi), hk j (List.mem_range.mp hj)]
    omega
  have hkeys_t : (((List.range n).map names).map chunkIdx).Nodup := by
    rw [List.map_map]
    have hcongr : (List.range n).map (chunkIdx ∘ names)
        = (List.range n).map (fun (i : Nat) => a + (i : Int)) :=
      List.map_congr_left (fun i hi => hk i (List.mem_range.mp hi))
    rw [hcongr]
    exact (List.nodup_range n).map (fun x y h => by omega)
  have hkeys : ((chunkFiles listing).map chunkIdx).Nodup :=
    ((hperm2.map chunkIdx).nodup_iff).mpr hkeys_t
  haveI : IsTotal String (fun x y => chunkIdx x ≤ chunkIdx y) :=
    ⟨fun x y => Int.le_total _ _⟩
  haveI : IsTrans String (fun x y => chunkIdx x ≤ chunkIdx y) :=
    ⟨fun x y z h1 h2 => le_trans h1 h2⟩
  have hle : (chunkFiles listing).Pairwise (fun x y => chunkIdx x ≤ chunkIdx y) :=
    List.sorted_insertionSort _ _
  have hne : (chunkFiles listing).Pairwise (fun x y => chunkIdx x ≠ chunkIdx y) :=
    List.pairwise_map.mp hkeys
  have hstrict_s : (chunkFiles listing).Pairwise
      (fun x y => chunkIdx x < chunkIdx y) :=
    (hle.and hne).imp (fun h => lt_of_le_of_ne h.1 h.2)
  haveI : IsAntisymm String (fun x y => chunkIdx x < chunkIdx y) :=
    ⟨fun u v h1 h2 => absurd (lt_trans h1 h2) (lt_irrefl _)⟩
  exact List.eq_of_perm_of_sorted hperm2 hstrict_s hstrict_t

/-- **C5.** For a directory whose fragments carry a contiguous range of
integer indices, `save_file_chunks` outputs exactly the concatenation of the
fragments' contents in ascending index order, for *every* listing order of
the filesystem (any permutation of the fragment names). -/
theorem save_file_chunks_ordered (names : Nat → String) (n : Nat) (a : Int)
    (listing : List String) (contents : String → List Nat)
    (hperm : listing.Perm ((List.range n).map names))
    (hpre : ∀ i < n, isChunkFile (names i) = true)
    (hkey : ∀ i < n, chunkIdx? (names i) = some (a + i)) :
    (save_file_chunks listing contents (fun _ => false)).result
      = Except.ok (((List.range n).map (fun i => contents (names i))).flatten) := by
  have hcf := chunkFiles_of_perm_range names n a listing hperm hpre hkey
  have hpermf : (listing.filter isChunkFile).Perm ((List.range n).map names) := by
    have htf : ((List.range n).map names).filter isChunkFile
        = (List.range n).map names := by
      rw [List.filter_eq_self]
      intro x hx
      obtain ⟨i, hi, rfl⟩ := List.mem_map.mp hx
      exact hpre i (List.mem_range.mp hi)
    have := hperm.filter isChunkFile
    rwa [htf] at this
  have hany : ((listing.filter isChunkFile).any
      (fun f => (chunkIdx? f).isNone)) = false := by
    rw [List.any_eq_false]
    intro f hf
    obtain ⟨i, hi, rfl⟩ := List.mem_map.mp (hpermf.subset hf)
    rw [hkey i (List.mem_range.mp hi)]
    simp
  unfold save_file_chunks
  rw [hany]
  simp only [Bool.false_eq_true, if_false]
  rw [hcf, processChunks_no_fail]
  simp only [List.nil_append, List.map_map]
  rfl

/-- **C5 (witness).** Fragments listed in order `{2, 0, 1}` with fragment
`chunk_i` holding byte `65 + i` (`"A"`, `"B"`, `"C"`) assemble to
`[65, 66, 67]` (`"ABC"`): index order, not listing order. -/
theorem save_file_chunks_ordered_witness :
    (save_file_chunks ["chunk_2", "chunk_0", "chunk_1"]
        (fun f => if f = "chunk_0" then [65] else if f = "chunk_1" then [66] else [67])
        (fun _ => false)).result
      = Except.ok [65, 66, 67] := by
  rw [save_file_chunks_ordered
      (fun i => if i = 0 then "chunk_0" else if i = 1 then "chunk_1" else "chunk_2")
      3 0 ["chunk_2", "chunk_0", "chunk_1"]
      (fun f => if f = "chunk_0" then [65] else if f = "chunk_1" then [66] else [67])
      (by decide) (by decide) (by decide)]
  rfl

/-! ### Duplicate indices -/

/-- **C6 (counterexample).** `chunk_01` and `chunk_1` are distinct fragment
files carrying the same index `1`, yet `save_file_chunks` raises no error at
all: it returns the concatenation of both, so no `DuplicateChunkError`
exists in the code. -/
theorem duplicate_index_counterexample :
    chunkIdx? "chunk_01" = some 1 ∧ chunkIdx? "chunk_1" = some 1
    ∧ ("chunk_01" : String) ≠ "chunk_1"
    ∧ (save_file_chunks ["chunk_01", "chunk_1"]
        (fun f => if f = "chunk_01" then [88] else [89]) (fun _ => false)).result
        = Except.ok [88, 89] := by
  refine ⟨by decide, by decide, by decide, rfl⟩

/-- **C6 (amended).** Duplicate indices are not detected: on a directory of
two fragments with the same parsed index, `save_file_chunks` succeeds,
concatenating the fragments with the first-listed first (the sort is
stable), and the complete — not partial — combined file is what remains. -/
theorem duplicate_index_no_error (f g : String) (k : Int)
    (contents : String → List Nat)
    (hf : isChunkFile f = true) (hg : isChunkFile g = true)
    (hkf : chunkIdx? f = some k) (hkg : chunkIdx? g = some k) :
    (save_file_chunks [f, g] contents (fun _ => false)).result
      = Except.ok (contents f ++ contents g)
    ∧ (save_file_chunks [f, g] contents (fun _ => false)).temp
      = some (contents f ++ contents g) := by
  have hfilter : [f, g].filter isChunkFile = [f, g] := by
    rw [List.filter_eq_self]
    intro x hx
    rcases List.mem_cons.mp hx with rfl | hx
    · exact hf
    · rcases List.mem_cons.mp hx with rfl | hx
      · exact hg
      · exact absurd hx (List.not_mem_nil x)
  have hle : chunkIdx f ≤ chunkIdx g := by
    unfold chunkIdx
    rw [hkf, hkg]
  have hsort : chunkFiles [f, g] = [f, g] := by
    unfold chunkFiles
    rw [hfilter]
    simp only [List.insertionSort, List.orderedInsert]
    rw [if_pos hle]
  have hany : (([f, g].filter isChunkFile).any
      (fun x => (chunkIdx? x).isNone)) = false := by
    rw [hfilter]
    simp [hkf, hkg]
  unfold save_file_chunks
  rw [hany]
  simp only [Bool.false_eq_true, if_false]
  rw [hsort, processChunks_no_fail]
  exact ⟨by simp, by simp⟩

/-- **C6 (witness).** Two concrete fragments with index `1`: contents `X`
then `Y`, in listing order. -/
theorem duplicate_index_no_error_witness :
    (save_file_chunks ["chunk_01", "chunk_1"]
        (fun f => if f = "chunk_01" then [88] else [89]) (fun _ => false)).result
      = Except.ok ([88] ++ [89]) :=
  (duplicate_index_no_error "chunk_01" "chunk_1" 1
    (fun f => if f = "chunk_01" then [88] else [89])
    (by decide) (by decide) (by decide) (by decide)).1.trans (by rfl)

/-! ### Failure cleanup -/

theorem not_mem_foldl_erase_of_not_mem :
    ∀ (ds : List String) {r : List String} {x : String}, x ∉ r →
      x ∉ ds.foldl (fun a f => a.erase f) r
  | [], _, _, h => h
  | d :: ds, r, x, h => by
    rw [List.foldl_cons]
    exact not_mem_foldl_erase_of_not_mem ds (fun hm => h (List.erase_subset _ _ hm))

theorem not_mem_foldl_erase_of_mem :
    ∀ (ds : List String) {r : List String} {x : String}, r.Nodup → x ∈ ds →
      x ∉ ds.foldl (fun a f => a.erase f) r
  | [], _, _, _, hx => absurd hx (List.not_mem_nil _)
  | d :: ds, r, x, hnd, hx => by
    rw [List.foldl_cons]
    by_cases hxd : x = d
    · subst hxd
      exact not_mem_foldl_erase_of_not_mem ds (hnd.not_mem_erase)
    · rcases List.mem_cons.mp hx with h | h
      · exact absurd h hxd
      · exact not_mem_foldl_erase_of_mem ds (hnd.erase d) h

theorem mem_foldl_erase_of_not_mem :
    ∀ (ds : List String) {r : List String} {x : String}, x ∈ r → x ∉ ds →
      x ∈ ds.foldl (fun a f => a.erase f) r
  | [], _, _, hr, _ => hr
  | d :: ds, r, x, hr, hds => by
    rw [List.foldl_cons]
    have hxd : x ≠ d := fun h => hds (h ▸ List.mem_cons_self x ds)
    exact mem_foldl_erase_of_not_mem ds
      ((List.mem_erase_of_ne hxd).mpr hr)
      (fun h => hds (List.mem_cons_of_mem d h))

theorem count_readChunk_flatMap (f : String) :
    ∀ (l : List String),
      ((l.flatMap chunkTrip).count (ChunkEv.readChunk f)) = l.count f
  | [] => rfl
  | g :: l => by
    rw [List.flatMap_cons, List.count_append, count_readChunk_flatMap f l]
    by_cases h : g = f <;>
      simp [chunkTrip, List.count_cons, h, Nat.add_comm]

/-- **C7.** If an I/O failure hits the read of the `k`-th sorted fragment
(the first failure), then: the original error is propagated (naming that
fragment), the partially written temporary output is removed, the fragments
consumed before the failure are deleted and stay deleted, every other file
of the directory is untouched, the trace is exactly
read-write-delete per consumed fragment (each fragment deleted immediately
after its bytes are copied), and no fragment is read more than once. -/
theorem save_file_chunks_failure_cleanup
    (listing : List String) (contents : String → List Nat) (failAt : Nat → Bool)
    (k : Nat) (hnodup : listing.Nodup)
    (hparse : ∀ f ∈ listing, isChunkFile f = true → (chunkIdx? f).isSome = true)
    (hk : k < (chunkFiles listing).length)
    (hfail : failAt k = true) (hmin : ∀ j < k, failAt j = false) :
    (save_file_chunks listing contents failAt).result
        = Except.error ((chunkFiles listing).getD k "")
    ∧ (save_file_chunks listing contents failAt).temp = none
    ∧ (∀ f ∈ (chunkFiles listing).take k,
        f ∉ (save_file_chunks listing contents failAt).remaining)
    ∧ (∀ g ∈ listing, g ∉ (chunkFiles listing).take k →
        g ∈ (save_file_chunks listing contents failAt).remaining)
    ∧ (save_file_chunks listing contents failAt).trace
        = ((chunkFiles listing).take k).flatMap chunkTrip
    ∧ (∀ f, ((save_file_chunks listing contents failAt).trace.count
        (ChunkEv.readChunk f)) ≤ 1) := by
  have hnodup_files : (chunkFiles listing).Nodup :=
    ((List.perm_insertionSort _ _).nodup_iff).mpr (hnodup.filter _)
  have hnodup_take : ((chunkFiles listing).take k).Nodup :=
    (List.take_sublist k _).nodup hnodup_files
  have hany : ((listing.filter isChunkFile).any
      (fun f => (chunkIdx? f).isNone)) = false := by
    rw [List.any_eq_false]
    intro f hf
    have hmem := List.mem_filter.mp hf
    have hs := hparse f hmem.1 hmem.2
    cases hc : chunkIdx? f with
    | none => rw [hc] at hs; simp at hs
    | some v => simp [hc]
  unfold save_file_chunks
  rw [hany]
  simp only [Bool.false_eq_true, if_false]
  rw [processChunks_fail contents failAt (chunkFiles listing) k 0 listing [] []
      hk (by simpa using hfail) (fun j hj => by simpa using hmin j hj)]
  refine ⟨rfl, rfl, ?_, ?_, by simp, ?_⟩
  · intro f hf
    exact not_mem_foldl_erase_of_mem _ hnodup hf
  · intro g hg hgk
    exact mem_foldl_erase_of_not_mem _ hg hgk
  · intro f
    show (([] ++ ((chunkFiles listing).take k).flatMap chunkTrip).count
        (ChunkEv.readChunk f)) ≤ 1
    rw [List.nil_append, count_readChunk_flatMap]
    exact List.nodup_iff_count_le_one.mp hnodup_take f

/-- **C7 (witness).** The read of the second sorted fragment (`chunk_1`)
fails: the error names it, the temporary file is gone, and the trace shows
exactly one read-write-delete triple, for `chunk_0`. -/
theorem save_file_chunks_failure_cleanup_witness :
    (save_file_chunks ["chunk_1", "chunk_0"] (fun _ => [7])
        (fun i => i == 1)).result = Except.error "chunk_1"
    ∧ (save_file_chunks ["chunk_1", "chunk_0"] (fun _ => [7])
        (fun i => i == 1)).temp = none
    ∧ (save_file_chunks ["chunk_1", "chunk_0"] (fun _ => [7])
        (fun i => i == 1)).trace = chunkTrip "chunk_0" :=
  have h := save_file_chunks_failure_cleanup ["chunk_1", "chunk_0"]
    (fun _ => [7]) (fun i => i == 1) 1 (by decide) (by decide) (by decide)
    (by decide) (by decide)
  ⟨h.1.trans (by rfl), h.2.1, h.2.2.2.2.1.trans (by rfl)⟩

end SFS
